import Mathlib

/-!
Verification development for the conventional-release action.

Shallow embedding conventions:
* Rust `String`/`&str` values are modelled as `List Char`.  All string
  operations the program uses (`starts_with`, `ends_with`, `find`,
  `split`, `replace`, `trim`, `to_lowercase`, slicing) act on character
  positions; the byte positions the Rust code computes always fall on the
  boundaries of the one-byte characters it searches for, so the
  character-level model coincides with the byte-level code.
  `to_lowercase` is modelled per character (`Char.toLower`) and
  `is_alphabetic`/whitespace classification by the corresponding `Char`
  predicates, which agree with Rust on ASCII input.
* `semver::Version` (an external crate) is modelled by the
  (major, minor, patch) triple of the specification's data model, its
  `Ord` by the lexicographic order on those triples, `Version::parse` by
  the strict dotted-decimal parse of such triples (three non-empty digit
  runs, no leading zeros) and `Display` by canonical decimal printing.
* Machine integers (`u64` version components) are modelled as `Nat`;
  no behaviour considered here exercises overflow.
* Fallible Rust functions returning `Result` are modelled with `Except`;
  the `?` operator corresponds to monadic bind / `foldlM`.  A Rust panic
  (out-of-range slice indexing) is modelled by an explicit `panicked`
  outcome.
* Repository state read or written through `git2` (tag lists, commit
  identifiers) is passed in explicitly: tags as lists of names (paired
  with a `Nat` commit identifier where the target matters) and the
  file system as an association list from paths to stored contents,
  where a stored content of `Option.none` models a file that exists but
  whose bytes are not valid UTF-8, so that `fs::read_to_string` on it
  returns an error.
-/

/-- Model of `semver::Version`, restricted to the specification's data
model: a (major, minor, patch) triple of non-negative integers. -/
structure Version where
  major : Nat
  minor : Nat
  patch : Nat
deriving DecidableEq

/-- Model of `BumpType` (src/bump_type.rs): the severity of a change. -/
inductive BumpType where
  | major
  | minor
  | patch
  | none
deriving DecidableEq

/-- Model of `VersionManager::calculate_new_version`
(src/version_manager.rs:23-50), with the `Result` wrapper dropped because
the Rust function returns `Ok` on every path. -/
def VersionManager.calculate_new_version (current : Version) (bump_type : BumpType) : Version :=
  match bump_type with
  | BumpType.major => { current with major := current.major + 1, minor := 0, patch := 0 }
  | BumpType.minor => { current with minor := current.minor + 1, patch := 0 }
  | BumpType.patch => { current with patch := current.patch + 1 }
  | BumpType.none => current

/-- The (major, minor, patch) lexicographic order of the specification,
which is the order `semver::Version`'s `Ord` computes on plain triples. -/
def vle (a b : Version) : Bool :=
  decide (a.major < b.major ∨ (a.major = b.major ∧
    (a.minor < b.minor ∨ (a.minor = b.minor ∧ a.patch ≤ b.patch))))

/-- Rust `str::to_lowercase`, modelled per character. -/
def lowerStr (l : List Char) : List Char := l.map Char.toLower

/-- Rust `str::split(sep)`: splits at every separator occurrence, always
returning at least one (possibly empty) piece. -/
def splitOnChar (sep : Char) : List Char → List (List Char)
  | [] => [[]]
  | c :: rest =>
    match splitOnChar sep rest with
    | [] => [[]]
    | r :: rs => if c = sep then [] :: r :: rs else (c :: r) :: rs

/-- Rust `str::trim`: drops whitespace from both ends. -/
def trimChars (l : List Char) : List Char :=
  ((l.dropWhile Char.isWhitespace).reverse.dropWhile Char.isWhitespace).reverse

/-- Rust `str::contains(needle)` for a string needle: contiguous
substring test. -/
def hasSubSeq : List Char → List Char → Bool
  | [], nd => nd.isEmpty
  | c :: t, nd => nd.isPrefixOf (c :: t) || hasSubSeq t nd

/-- Canonical decimal printing of a natural number (Rust `u64` `Display`),
most significant digit first, no leading zeros. -/
def natToChars (n : Nat) : List Char :=
  if h : n < 10 then [Nat.digitChar n]
  else natToChars (n / 10) ++ [Nat.digitChar (n % 10)]
termination_by n
decreasing_by exact Nat.div_lt_self (by omega) (by omega)

/-- Value of a digit run read most significant digit first. -/
def decodeDigits (cs : List Char) : Nat :=
  cs.foldl (fun a c => 10 * a + (c.toNat - 48)) 0

/-- Parse of one numeric component as `semver` does it: a non-empty run
of decimal digits with no leading zero (except the run "0" itself). -/
def parseNatStrict (cs : List Char) : Option Nat :=
  if cs ≠ [] ∧ cs.all Char.isDigit = true ∧ (cs.headD '0' = '0' → cs = ['0'])
  then some (decodeDigits cs) else Option.none

/-- Model of `semver::Version::parse` on the specification's data model:
exactly three dot-separated numeric components. -/
def Version.parse (cs : List Char) : Option Version :=
  match splitOnChar '.' cs with
  | [a, b, c] =>
    match parseNatStrict a, parseNatStrict b, parseNatStrict c with
    | some x, some y, some z => some ⟨x, y, z⟩
    | _, _, _ => Option.none
  | _ => Option.none

/-- Model of `semver::Version` `Display` / `to_string()`. -/
def Version.to_string (v : Version) : List Char :=
  natToChars v.major ++ '.' :: (natToChars v.minor ++ '.' :: natToChars v.patch)

/-- The prefix-stripping step of `VersionManager::get_version_from_git_tags`
(src/version_manager.rs:70-73) and of `find_previous_release_commit`
(src/release.rs:24-26): drop a configured non-empty leading tag marker. -/
def stripTagPre (tagPre tagName : List Char) : List Char :=
  if !tagPre.isEmpty && tagPre.isPrefixOf tagName then tagName.drop tagPre.length
  else tagName

/-- The suffix-stripping step of `VersionManager::get_version_from_git_tags`
(src/version_manager.rs:74-76) and of `find_previous_release_commit`
(src/release.rs:27-29): drop a configured non-empty trailing tag marker
from the text remaining after the prefix strip. -/
def stripTagSuf (tagSuf s : List Char) : List Char :=
  if !tagSuf.isEmpty && tagSuf.isSuffixOf s then s.take (s.length - tagSuf.length)
  else s

/-- The per-tag decoding step shared by `get_version_from_git_tags` and
`find_previous_release_commit`: strip prefix, strip suffix, then attempt
the version parse. -/
def decodeTag (tagPre tagSuf tagName : List Char) : Option Version :=
  Version.parse (stripTagSuf tagSuf (stripTagPre tagPre tagName))

/-- Insertion step of a stable sort by the boolean relation `le`. -/
def insertBy {α : Type} (le : α → α → Bool) (v : α) : List α → List α
  | [] => [v]
  | w :: ws => if le v w then v :: w :: ws else w :: insertBy le v ws

/-- Stable sort by the boolean relation `le`, modelling `Vec::sort` /
`Vec::sort_by` on the decoded version list. -/
def sortBy {α : Type} (le : α → α → Bool) : List α → List α
  | [] => []
  | v :: vs => insertBy le v (sortBy le vs)

/-- Model of `VersionManager::get_version_from_git_tags`
(src/version_manager.rs:52-99).  The tag names fetched from the hosting
platform are passed in as `tags`; the configured initial version (which
the code parses from configuration, defaulting to "0.1.0") is passed in
as `initial`.  The code collects every tag that decodes to a version,
returns `initial` when none does, and otherwise sorts the decoded
versions and returns the last (highest) one. -/
def VersionManager.get_version_from_git_tags (tags : List (List Char))
    (tagPre tagSuf : List Char) (initial : Version) : Version :=
  let versions := tags.filterMap (decodeTag tagPre tagSuf)
  if versions.isEmpty then initial
  else (sortBy vle versions).getLastD initial

/-- Model of `ConventionalCommit` (src/conventional_commit.rs:4-12). -/
structure ConventionalCommit where
  commit_type : List Char
  scope : Option (List Char)
  description : List Char
  body : Option (List Char)
  footer : Option (List Char)
  breaking_change : Bool
deriving DecidableEq

/-- Outcome of `ConventionalCommit::parse`: success, one of the two
string errors, or a Rust panic (out-of-range slice index). -/
inductive ParseResult where
  | ok (commit : ConventionalCommit)
  | missingSeparator
  | unclosedScope
  | panicked
deriving DecidableEq

/-- One iteration of the body/footer loop of `ConventionalCommit::parse`
(src/conventional_commit.rs:43-74): blank lines are skipped, a line
containing "BREAKING CHANGE:" or a colon preceded by a leading
alphabetic/dash token switches into footer mode, and the line is pushed
to the footer or the body accordingly.  The accumulator is
(body lines, footer lines, in-footer flag). -/
def bodyFooterStep (acc : List (List Char) × List (List Char) × Bool)
    (line : List Char) : List (List Char) × List (List Char) × Bool :=
  if trimChars line = [] then acc
  else
    let inFooter := acc.2.2 || (hasSubSeq line ("BREAKING CHANGE:".toList)
      || (line.contains ':' &&
          decide (0 < (line.takeWhile (fun c => c.isAlpha || c = '-')).length)))
    if inFooter then (acc.1, acc.2.1 ++ [line], inFooter)
    else (acc.1 ++ [line], acc.2.1, inFooter)

/-- Assembly of the successful `ConventionalCommit::parse` result
(src/conventional_commit.rs:39-95): fold the remaining lines into body
and footer, join each with newlines, and set `breaking_change` when the
header contained '!' or the footer contains "BREAKING CHANGE:". -/
def finishParse (commitType : List Char) (scope : Option (List Char))
    (description : List Char) (breaking0 : Bool)
    (lines : List (List Char)) : ParseResult :=
  let acc := lines.tail.foldl bodyFooterStep ([], [], false)
  let body := if acc.1 = [] then Option.none else some (List.intercalate ['\n'] acc.1)
  let footer := if acc.2.1 = [] then Option.none
    else some (List.intercalate ['\n'] acc.2.1)
  let breaking := breaking0 ||
    (match footer with
     | some f => hasSubSeq f ("BREAKING CHANGE:".toList)
     | Option.none => false)
  ParseResult.ok ⟨commitType, scope, description, body, footer, breaking⟩

/-- Model of `ConventionalCommit::parse` (src/conventional_commit.rs:14-95).
The header is the first line; a missing ':' is the missing-separator
error; the type part is the text before the first ':' with every '!'
removed; when it contains '(', a missing ')' is the unclosed-scope error,
and the Rust slice `type_part[paren_start + 1..paren_end]` panics when
the first ')' sits before the first '('. -/
def ConventionalCommit.parse (message : List Char) : ParseResult :=
  let lines := splitOnChar '\n' message
  let header := lines.headD []
  let breaking0 := header.contains '!'
  match List.findIdx? (fun c => c == ':') header with
  | Option.none => ParseResult.missingSeparator
  | some colonPos =>
    let typePart0 := header.take colonPos
    let description := trimChars (header.drop (colonPos + 1))
    let typePart := typePart0.filter (fun c => c != '!')
    match List.findIdx? (fun c => c == '(') typePart with
    | Option.none => finishParse typePart Option.none description breaking0 lines
    | some parenStart =>
      match List.findIdx? (fun c => c == ')') typePart with
      | Option.none => ParseResult.unclosedScope
      | some parenEnd =>
        if parenStart + 1 ≤ parenEnd then
          finishParse (typePart.take parenStart)
            (some ((typePart.drop (parenStart + 1)).take (parenEnd - (parenStart + 1))))
            description breaking0 lines
        else ParseResult.panicked

/-- Model of `ConventionalCommit::bump_type`
(src/conventional_commit.rs:96-109). -/
def ConventionalCommit.bump_type (c : ConventionalCommit) : BumpType :=
  if c.breaking_change then BumpType.major
  else if c.commit_type = "feat".toList then BumpType.minor
  else if c.commit_type = "fix".toList ∨ c.commit_type = "perf".toList
      ∨ c.commit_type = "security".toList then BumpType.patch
  else if c.commit_type = "docs".toList ∨ c.commit_type = "style".toList
      ∨ c.commit_type = "refactor".toList ∨ c.commit_type = "test".toList
      ∨ c.commit_type = "chore".toList ∨ c.commit_type = "build".toList
      ∨ c.commit_type = "ci".toList ∨ c.commit_type = "revert".toList then BumpType.none
  else BumpType.none

/-- Model of `BumpType::from_conventional_commit` (src/bump_type.rs:10-22):
the string-based classifier used on the HEAD commit message. -/
def BumpType.from_conventional_commit (message : List Char) : BumpType :=
  let m := lowerStr message
  if ("feat!".toList).isPrefixOf m || m.contains '!' then BumpType.major
  else if ("feat".toList).isPrefixOf m then BumpType.minor
  else if ("fix".toList).isPrefixOf m || ("perf".toList).isPrefixOf m then BumpType.patch
  else BumpType.none

/-- Model of `find_previous_release_commit` (src/release.rs:10-47).
Repository tags are passed in as (name, target commit) pairs with the
"refs/tags/" marker already removed, as the code does for each tag.
Every tag whose name decodes to a version is kept with its target; the
pairs are sorted by version and the target of the last (highest) one is
returned, or nothing when no tag decodes. -/
def find_previous_release_commit (tags : List (List Char × Nat))
    (tagPre tagSuf : List Char) : Option Nat :=
  let vcs := tags.filterMap (fun t => (decodeTag tagPre tagSuf t.1).map (fun v => (v, t.2)))
  if vcs.isEmpty then Option.none
  else some ((sortBy (fun a b => vle a.1 b.1) vcs).getLastD (⟨0, 0, 0⟩, 0)).2

/-- The release commit record produced by one run: parent identifiers in
order, commit message, tag name and major-version branch name. -/
structure ReleaseCommit where
  parents : List Nat
  message : List Char
  tagName : List Char
  branchName : List Char
deriving DecidableEq

/-- Model of the graph-shaping part of `create_release_commit`
(src/release.rs:49-121): locate the previous release commit, choose the
parent list ([previous release, branch tip] when a previous release
exists, [branch tip] otherwise), and form the commit message, the tag
name `tagPre ++ version ++ tagSuf` and the major-version branch name
"v{major}".  The repository tags and the current branch tip are passed
in explicitly; the file staging, object writing and reference updates
are the repository side effects of those computed values. -/
def create_release_commit (version : Version) (tags : List (List Char × Nat))
    (tagPre tagSuf : List Char) (mainCommit : Nat) : ReleaseCommit :=
  let base := find_previous_release_commit tags tagPre tagSuf
  let parents := match base with
    | some oid => [oid, mainCommit]
    | Option.none => [mainCommit]
  { parents := parents
    message := "chore: release version ".toList ++ version.to_string
    tagName := tagPre ++ version.to_string ++ tagSuf
    branchName := 'v' :: natToChars version.major }

/-- Model of `FileUpdateConfig` (src/config.rs:17-22). -/
structure FileUpdateConfig where
  path : List Char
  marker : List Char
  template : Option (List Char)
deriving DecidableEq

/-- File system snapshot: an association list from paths to stored
contents.  A stored content of `some text` is a readable UTF-8 file; a
stored content of `Option.none` is a file that exists (`Path::exists`
is true) but whose bytes are not valid UTF-8, so `fs::read_to_string`
on it returns `Err`. -/
abbrev FileSystem := List (List Char × Option (List Char))

/-- Write of one file: replace the content stored for the path. -/
def writeFile (fs : FileSystem) (p content : List Char) : FileSystem :=
  fs.map (fun e => if e.1 == p then (e.1, some content) else e)

/-- Recursion core of Rust `str::replace` for a non-empty pattern:
replace non-overlapping occurrences left to right. -/
def replaceCore (nd rep : List Char) : List Char → List Char
  | [] => []
  | c :: t =>
    if h : nd.isPrefixOf (c :: t) && !nd.isEmpty then
      rep ++ replaceCore nd rep ((c :: t).drop nd.length)
    else c :: replaceCore nd rep t
termination_by l => l.length
decreasing_by
  · simp only [List.length_drop, List.length_cons]
    simp only [Bool.and_eq_true, Bool.not_eq_true', List.isEmpty_eq_false] at h
    have : nd.length ≠ 0 := by
      simpa [List.length_eq_zero] using h.2
    omega
  · simp

/-- Rust `str::replace(needle, rep)`.  An empty needle matches at every
character boundary, including both ends. -/
def replaceAll (hay nd rep : List Char) : List Char :=
  if nd.isEmpty then rep ++ hay.flatMap (fun c => c :: rep)
  else replaceCore nd rep hay

/-- The replacement text of `update_file_version`
(src/file_updater.rs:18-23): the template with "{version}" substituted
when a template is configured, the bare version string otherwise. -/
def replacementFor (fc : FileUpdateConfig) (version : Version) : List Char :=
  match fc.template with
  | some t => replaceAll t ("\x7bversion\x7d".toList) version.to_string
  | Option.none => version.to_string

/-- Model of `update_file_version` (src/file_updater.rs:5-37).  An absent
file is skipped with success (`return Ok(())` after the existence
check); on an existing file `std::fs::read_to_string(path)?`
(src/file_updater.rs:16) propagates its `Err` — represented here by a
stored content of `Option.none`, the unreadable-bytes state, carrying
the error text `io::Error` produces for it; on readable content the
marker is replaced and the file is written back only when the content
changed.  Write errors (src/file_updater.rs:30) depend on conditions
outside the snapshot (permissions, disk) and are not represented; they
would propagate through the same `?` as the read error. -/
def update_file_version (fc : FileUpdateConfig) (version : Version)
    (fs : FileSystem) : Except (List Char) FileSystem :=
  match fs.lookup fc.path with
  | Option.none => Except.ok fs
  | some Option.none => Except.error ("stream did not contain valid UTF-8".toList)
  | some (some content) =>
    let updated := replaceAll content fc.marker (replacementFor fc version)
    if content ≠ updated then Except.ok (writeFile fs fc.path updated)
    else Except.ok fs

/-- The file-update loop of `create_release_commit` (src/release.rs:79-83):
each configured rule is applied in order through the `?` operator, so an
`Except.error` from any rule would abort the whole build. -/
def apply_file_updates (files : List FileUpdateConfig) (version : Version)
    (fs : FileSystem) : Except (List Char) FileSystem :=
  files.foldlM (fun acc fc => update_file_version fc version acc) fs

/-- Model of `ActionOutput` (src/output.rs) as far as the run logic
shapes it. -/
structure ActionOutput where
  released : Bool
  version : Option (List Char)
  tag : Option (List Char)
  release_url : Option (List Char)
deriving DecidableEq

/-- Model of the release decision core of `ReleaseApplication::run`
(src/lib.rs:76-102), after the pull-request validation branch: resolve
the current version from the tags, classify the HEAD commit message with
`BumpType::from_conventional_commit`, compute the next version, and
return a released-false output in dry-run mode or when the bump is None,
a released-true output otherwise.  External collaborator effects (the
platform release record, whose URL fills `release_url`) are outside the
model, so `release_url` is left empty and the tag field carries the tag
name the run creates. -/
def ReleaseApplication.run (initial : Version) (tags : List (List Char))
    (tagPre tagSuf : List Char) (headMessage : List Char)
    (dry_run : Bool) : Except (List Char) ActionOutput :=
  let current_version := VersionManager.get_version_from_git_tags tags tagPre tagSuf initial
  let version_bump := BumpType.from_conventional_commit headMessage
  let new_version := VersionManager.calculate_new_version current_version version_bump
  if dry_run then
    Except.ok ⟨false, some new_version.to_string, Option.none, Option.none⟩
  else if version_bump = BumpType.none then
    Except.ok ⟨false, some new_version.to_string, Option.none, Option.none⟩
  else
    Except.ok ⟨true, some new_version.to_string,
      some (tagPre ++ new_version.to_string ++ tagSuf), Option.none⟩

theorem vle_iff {a b : Version} : vle a b = true ↔
    (a.major < b.major ∨ (a.major = b.major ∧
      (a.minor < b.minor ∨ (a.minor = b.minor ∧ a.patch ≤ b.patch)))) := by
  simp [vle]

theorem vle_refl (a : Version) : vle a a = true := by
  simp [vle_iff]

theorem vle_total (a b : Version) : vle a b = true ∨ vle b a = true := by
  simp only [vle_iff]
  omega

theorem vle_trans {a b c : Version} (h1 : vle a b = true) (h2 : vle b c = true) :
    vle a c = true := by
  simp only [vle_iff] at h1 h2 ⊢
  omega

/-- C1: For every version v, the version calculator sends Major to
(major+1, 0, 0), Minor to (major, minor+1, 0), Patch to
(major, minor, patch+1) and None to v unchanged. -/
theorem c1_calculate_new_version_spec (v : Version) :
    VersionManager.calculate_new_version v BumpType.major = ⟨v.major + 1, 0, 0⟩
    ∧ VersionManager.calculate_new_version v BumpType.minor = ⟨v.major, v.minor + 1, 0⟩
    ∧ VersionManager.calculate_new_version v BumpType.patch = ⟨v.major, v.minor, v.patch + 1⟩
    ∧ VersionManager.calculate_new_version v BumpType.none = v := by
  refine ⟨rfl, rfl, rfl, rfl⟩

/-- C9: For every version v and severity s, the calculator's result is
greater than or equal to v in the (major, minor, patch) lexicographic
order: the calculator never goes below the resolved current version. -/
theorem c9_calculate_new_version_monotone (v : Version) (s : BumpType) :
    vle v (VersionManager.calculate_new_version v s) = true := by
  cases s <;> simp [VersionManager.calculate_new_version, vle_iff]

theorem mem_insertBy {α : Type} (le : α → α → Bool) (v : α) (l : List α) (x : α) :
    x ∈ insertBy le v l ↔ x = v ∨ x ∈ l := by
  induction l with
  | nil => simp [insertBy]
  | cons w ws ih =>
    simp only [insertBy]
    split
    · simp
    · simp only [List.mem_cons, ih]
      tauto

theorem insertBy_ne_nil {α : Type} (le : α → α → Bool) (v : α) (l : List α) :
    insertBy le v l ≠ [] := by
  cases l with
  | nil => simp [insertBy]
  | cons w ws =>
    simp only [insertBy]
    split <;> simp

theorem mem_sortBy {α : Type} (le : α → α → Bool) (l : List α) (x : α) :
    x ∈ sortBy le l ↔ x ∈ l := by
  induction l with
  | nil => simp [sortBy]
  | cons v vs ih =>
    simp [sortBy, mem_insertBy, ih]

theorem sortBy_eq_nil_iff {α : Type} (le : α → α → Bool) (l : List α) :
    sortBy le l = [] ↔ l = [] := by
  cases l with
  | nil => simp [sortBy]
  | cons v vs =>
    simp only [sortBy]
    constructor
    · intro h
      exact absurd h (insertBy_ne_nil le v (sortBy le vs))
    · intro h
      exact absurd h (by simp)

theorem pairwise_insertBy {α : Type} (le : α → α → Bool)
    (htot : ∀ a b, le a b = true ∨ le b a = true)
    (htrans : ∀ a b c, le a b = true → le b c = true → le a c = true)
    (v : α) (l : List α) (h : l.Pairwise (fun a b => le a b = true)) :
    (insertBy le v l).Pairwise (fun a b => le a b = true) := by
  induction l with
  | nil => simp [insertBy]
  | cons w ws ih =>
    simp only [insertBy]
    rcases List.pairwise_cons.mp h with ⟨hw, hws⟩
    split
    · rename_i hvw
      refine List.pairwise_cons.mpr ⟨?_, h⟩
      intro x hx
      rcases List.mem_cons.mp hx with rfl | hx
      · exact hvw
      · exact htrans v w x hvw (hw x hx)
    · rename_i hvw
      have hwv : le w v = true := by
        rcases htot v w with h1 | h1
        · exact absurd h1 hvw
        · exact h1
      refine List.pairwise_cons.mpr ⟨?_, ih hws⟩
      intro x hx
      rcases (mem_insertBy le v ws x).mp hx with rfl | hx
      · exact hwv
      · exact hw x hx

theorem pairwise_sortBy {α : Type} (le : α → α → Bool)
    (htot : ∀ a b, le a b = true ∨ le b a = true)
    (htrans : ∀ a b c, le a b = true → le b c = true → le a c = true)
    (l : List α) : (sortBy le l).Pairwise (fun a b => le a b = true) := by
  induction l with
  | nil => simp [sortBy]
  | cons v vs ih => exact pairwise_insertBy le htot htrans v (sortBy le vs) ih

theorem getLastD_mem {α : Type} (l : List α) (d : α) (h : l ≠ []) :
    l.getLastD d ∈ l := by
  induction l generalizing d with
  | nil => exact absurd rfl h
  | cons a t ih =>
    cases t with
    | nil => simp [List.getLastD]
    | cons b u =>
      have := ih a (by simp)
      simp only [List.getLastD] at this ⊢
      exact List.mem_cons_of_mem a this

theorem pairwise_le_getLastD {α : Type} (le : α → α → Bool)
    (hrefl : ∀ a, le a a = true) (l : List α) (d : α)
    (hp : l.Pairwise (fun a b => le a b = true)) (hne : l ≠ []) :
    ∀ x ∈ l, le x (l.getLastD d) = true := by
  induction l generalizing d with
  | nil => exact absurd rfl hne
  | cons a t ih =>
    intro x hx
    cases t with
    | nil =>
      rcases List.mem_singleton.mp hx with rfl
      simp [List.getLastD, hrefl]
    | cons b u =>
      rcases List.pairwise_cons.mp hp with ⟨ha, ht⟩
      simp only [List.getLastD]
      rcases List.mem_cons.mp hx with rfl | hx
      · exact ha _ (getLastD_mem (b :: u) x (by simp))
      · exact ih a ht (by simp) x hx

theorem sortBy_getLastD_max {α : Type} (le : α → α → Bool)
    (htot : ∀ a b, le a b = true ∨ le b a = true)
    (htrans : ∀ a b c, le a b = true → le b c = true → le a c = true)
    (hrefl : ∀ a, le a a = true) (l : List α) (d : α) (hne : l ≠ []) :
    (sortBy le l).getLastD d ∈ l ∧ ∀ x ∈ l, le x ((sortBy le l).getLastD d) = true := by
  have hsne : sortBy le l ≠ [] := by
    simpa [sortBy_eq_nil_iff] using hne
  constructor
  · exact (mem_sortBy le l _).mp (getLastD_mem (sortBy le l) d hsne)
  · intro x hx
    exact pairwise_le_getLastD le hrefl (sortBy le l) d
      (pairwise_sortBy le htot htrans l) hsne x ((mem_sortBy le l x).mpr hx)

/-- C2: For every tag set and prefix/suffix configuration, version
resolution decodes each tag by stripping the configured non-empty
leading/trailing markers and parsing the rest, silently skipping tags
that do not decode; it returns the configured initial version when no
tag decodes, and otherwise the maximum decoded version in the
(major, minor, patch) lexicographic order.  The last conjunct is the
specification's concrete example. -/
theorem c2_get_version_from_git_tags_spec (tags : List (List Char))
    (tagPre tagSuf : List Char) (initial : Version) :
    (tags.filterMap (decodeTag tagPre tagSuf) = [] →
      VersionManager.get_version_from_git_tags tags tagPre tagSuf initial = initial)
    ∧ (tags.filterMap (decodeTag tagPre tagSuf) ≠ [] →
      VersionManager.get_version_from_git_tags tags tagPre tagSuf initial
          ∈ tags.filterMap (decodeTag tagPre tagSuf)
        ∧ ∀ w ∈ tags.filterMap (decodeTag tagPre tagSuf),
            vle w (VersionManager.get_version_from_git_tags tags tagPre tagSuf initial) = true)
    ∧ VersionManager.get_version_from_git_tags
        ["v1.0.0".toList, "v2.3.1".toList, "garbage".toList] "v".toList [] ⟨0, 1, 0⟩
        = ⟨2, 3, 1⟩ := by
  refine ⟨?_, ?_, by decide⟩
  · intro h
    simp [VersionManager.get_version_from_git_tags, h]
  · intro h
    have hmax := sortBy_getLastD_max vle vle_total
      (fun a b c h1 h2 => vle_trans h1 h2) vle_refl
      (tags.filterMap (decodeTag tagPre tagSuf)) initial h
    have hne : (tags.filterMap (decodeTag tagPre tagSuf)).isEmpty = false := by
      simpa [List.isEmpty_eq_false] using h
    constructor
    · simpa [VersionManager.get_version_from_git_tags, hne] using hmax.1
    · intro w hw
      have := hmax.2 w hw
      simpa [VersionManager.get_version_from_git_tags, hne] using this

/-- Witness for C2 at the specification's example input. -/
theorem c2_get_version_from_git_tags_spec_witness :
    VersionManager.get_version_from_git_tags
        ["v1.0.0".toList, "v2.3.1".toList, "garbage".toList] "v".toList [] ⟨0, 1, 0⟩
        ∈ (["v1.0.0".toList, "v2.3.1".toList, "garbage".toList] :
            List (List Char)).filterMap (decodeTag "v".toList []) :=
  ((c2_get_version_from_git_tags_spec
      ["v1.0.0".toList, "v2.3.1".toList, "garbage".toList] "v".toList [] ⟨0, 1, 0⟩).2.1
    (by decide)).1

theorem digitChar_isDigit {d : Nat} (h : d < 10) : (Nat.digitChar d).isDigit = true := by
  interval_cases d <;> decide

theorem digitChar_toNat {d : Nat} (h : d < 10) : (Nat.digitChar d).toNat = d + 48 := by
  interval_cases d <;> decide

theorem digitChar_ne_zero {d : Nat} (h1 : 0 < d) (h2 : d < 10) :
    Nat.digitChar d ≠ '0' := by
  interval_cases d <;> decide

theorem natToChars_ne_nil (n : Nat) : natToChars n ≠ [] := by
  rw [natToChars]
  split <;> simp

theorem natToChars_all_digit (n : Nat) : ∀ c ∈ natToChars n, c.isDigit = true := by
  induction n using Nat.strong_induction_on with
  | _ n ih =>
    rw [natToChars]
    split
    · rename_i h
      intro c hc
      rcases List.mem_singleton.mp hc with rfl
      exact digitChar_isDigit h
    · rename_i h
      intro c hc
      rcases List.mem_append.mp hc with hc | hc
      · exact ih (n / 10) (Nat.div_lt_self (by omega) (by omega)) c hc
      · rcases List.mem_singleton.mp hc with rfl
        exact digitChar_isDigit (Nat.mod_lt _ (by omega))

theorem decodeDigits_append (xs : List Char) (c : Char) :
    decodeDigits (xs ++ [c]) = 10 * decodeDigits xs + (c.toNat - 48) := by
  simp [decodeDigits, List.foldl_append]

theorem decodeDigits_natToChars (n : Nat) : decodeDigits (natToChars n) = n := by
  induction n using Nat.strong_induction_on with
  | _ n ih =>
    rw [natToChars]
    split
    · rename_i h
      simp [decodeDigits, digitChar_toNat h]
    · rename_i h
      rw [decodeDigits_append, ih (n / 10) (Nat.div_lt_self (by omega) (by omega)),
        digitChar_toNat (Nat.mod_lt _ (by omega))]
      omega

theorem headD_append_of_ne_nil {α : Type} (a b : List α) (d : α) (h : a ≠ []) :
    (a ++ b).headD d = a.headD d := by
  cases a with
  | nil => exact absurd rfl h
  | cons x t => simp

theorem natToChars_headD (n : Nat) (h : n ≠ 0) (d : Char) :
    (natToChars n).headD d ≠ '0' := by
  induction n using Nat.strong_induction_on generalizing d with
  | _ n ih =>
    rw [natToChars]
    split
    · rename_i h10
      exact digitChar_ne_zero (by omega) h10
    · rename_i h10
      rw [headD_append_of_ne_nil _ _ _ (natToChars_ne_nil _)]
      exact ih (n / 10) (Nat.div_lt_self (by omega) (by omega)) (by omega) d

theorem natToChars_zero : natToChars 0 = ['0'] := by
  rw [natToChars]
  simp
  decide

theorem parseNatStrict_natToChars (n : Nat) : parseNatStrict (natToChars n) = some n := by
  unfold parseNatStrict
  rw [if_pos]
  · rw [decodeDigits_natToChars]
  · refine ⟨natToChars_ne_nil n, ?_, ?_⟩
    · exact List.all_eq_true.mpr (natToChars_all_digit n)
    · intro hhead
      rcases eq_or_ne n 0 with rfl | hn
      · exact natToChars_zero
      · exact absurd hhead (natToChars_headD n hn '0')

theorem splitOnChar_ne_nil (sep : Char) (l : List Char) : splitOnChar sep l ≠ [] := by
  induction l with
  | nil => simp [splitOnChar]
  | cons c rest ih =>
    simp only [splitOnChar]
    split
    · simp
    · split <;> simp

theorem splitOnChar_no_sep (sep : Char) (a : List Char) (h : sep ∉ a) :
    splitOnChar sep a = [a] := by
  induction a with
  | nil => rfl
  | cons c t ih =>
    have hc : ¬c = sep := by
      rintro rfl
      exact h (by simp)
    have ht : sep ∉ t := fun hm => h (List.mem_cons_of_mem c hm)
    simp only [splitOnChar, ih ht]
    simp [hc]

theorem splitOnChar_append (sep : Char) (a b : List Char) (h : sep ∉ a) :
    splitOnChar sep (a ++ sep :: b) = a :: splitOnChar sep b := by
  induction a with
  | nil =>
    simp only [List.nil_append, splitOnChar]
    cases hb : splitOnChar sep b with
    | nil => exact absurd hb (splitOnChar_ne_nil sep b)
    | cons r rs => simp
  | cons c t ih =>
    have hc : ¬c = sep := by
      rintro rfl
      exact h (by simp)
    have ht : sep ∉ t := fun hm => h (List.mem_cons_of_mem c hm)
    simp only [List.cons_append, splitOnChar, List.append_eq]
    rw [ih ht]
    simp [hc]

theorem dot_not_mem_natToChars (n : Nat) : '.' ∉ natToChars n := by
  intro hm
  have := natToChars_all_digit n '.' hm
  simp at this

theorem version_parse_to_string (v : Version) : Version.parse v.to_string = some v := by
  unfold Version.to_string Version.parse
  rw [splitOnChar_append '.' (natToChars v.major) _ (dot_not_mem_natToChars _),
    splitOnChar_append '.' (natToChars v.minor) _ (dot_not_mem_natToChars _),
    splitOnChar_no_sep '.' (natToChars v.patch) (dot_not_mem_natToChars _)]
  simp [parseNatStrict_natToChars]

theorem stripTagPre_append (tagPre rest : List Char) :
    stripTagPre tagPre (tagPre ++ rest) = rest := by
  rcases eq_or_ne tagPre [] with rfl | hne
  · simp [stripTagPre]
  · have h1 : tagPre.isPrefixOf (tagPre ++ rest) = true :=
      List.isPrefixOf_iff_prefix.mpr ⟨rest, rfl⟩
    simp [stripTagPre, h1, List.isEmpty_eq_false.mpr hne, List.drop_left]

theorem stripTagSuf_append (tagSuf rest : List Char) :
    stripTagSuf tagSuf (rest ++ tagSuf) = rest := by
  rcases eq_or_ne tagSuf [] with rfl | hne
  · simp [stripTagSuf]
  · have h1 : tagSuf.isSuffixOf (rest ++ tagSuf) = true :=
      List.isSuffixOf_iff_suffix.mpr ⟨rest, rfl⟩
    simp only [stripTagSuf, h1, List.isEmpty_eq_false.mpr hne, Bool.not_false,
      Bool.and_self, if_true, Bool.true_and, if_pos]
    rw [List.length_append, Nat.add_sub_cancel, List.take_left]

/-- C5: Round-trip — the tag name the release builder forms is
tagPre ++ version ++ tagSuf, and decoding that name with the same
prefix/suffix configuration yields exactly the version back. -/
theorem c5_tag_round_trip (v : Version) (tagPre tagSuf : List Char)
    (tags : List (List Char × Nat)) (mainCommit : Nat) :
    (create_release_commit v tags tagPre tagSuf mainCommit).tagName
        = tagPre ++ v.to_string ++ tagSuf
    ∧ decodeTag tagPre tagSuf (tagPre ++ v.to_string ++ tagSuf) = some v := by
  constructor
  · rfl
  · unfold decodeTag
    rw [List.append_assoc, stripTagPre_append, stripTagSuf_append]
    exact version_parse_to_string v

theorem find_previous_release_commit_none_iff (tags : List (List Char × Nat))
    (tagPre tagSuf : List Char) :
    find_previous_release_commit tags tagPre tagSuf = Option.none ↔
      tags.filterMap (fun t => decodeTag tagPre tagSuf t.1) = [] := by
  have hiff : (tags.filterMap (fun t => (decodeTag tagPre tagSuf t.1).map
        (fun v => (v, t.2)))) = [] ↔
      tags.filterMap (fun t => decodeTag tagPre tagSuf t.1) = [] := by
    rw [List.filterMap_eq_nil_iff, List.filterMap_eq_nil_iff]
    constructor
    · intro h a ha
      simpa [Option.map_eq_none'] using h a ha
    · intro h a ha
      simp [Option.map_eq_none', h a ha]
  constructor
  · intro h
    by_cases he : (tags.filterMap (fun t => (decodeTag tagPre tagSuf t.1).map
        (fun v => (v, t.2)))).isEmpty = true
    · exact hiff.mp (List.isEmpty_iff.mp he)
    · simp only [find_previous_release_commit, he] at h
      simp at h
  · intro h
    have he : (tags.filterMap (fun t => (decodeTag tagPre tagSuf t.1).map
        (fun v => (v, t.2)))).isEmpty = true :=
      List.isEmpty_iff.mpr (hiff.mpr h)
    simp [find_previous_release_commit, he]

/-- C6: A release commit built when no tag decodes to a version has
exactly the branch tip as its one parent; when a prior release exists it
has exactly two parents, the previous release commit first and the
branch tip second. -/
theorem c6_release_parents (version : Version) (tags : List (List Char × Nat))
    (tagPre tagSuf : List Char) (mainCommit : Nat) :
    (tags.filterMap (fun t => decodeTag tagPre tagSuf t.1) = [] →
      (create_release_commit version tags tagPre tagSuf mainCommit).parents = [mainCommit])
    ∧ (tags.filterMap (fun t => decodeTag tagPre tagSuf t.1) ≠ [] →
      ∃ oid, find_previous_release_commit tags tagPre tagSuf = some oid ∧
        (create_release_commit version tags tagPre tagSuf mainCommit).parents
          = [oid, mainCommit]) := by
  constructor
  · intro h
    have hn := (find_previous_release_commit_none_iff tags tagPre tagSuf).mpr h
    simp [create_release_commit, hn]
  · intro h
    have hn : find_previous_release_commit tags tagPre tagSuf ≠ Option.none := by
      intro hc
      exact h ((find_previous_release_commit_none_iff tags tagPre tagSuf).mp hc)
    cases hfp : find_previous_release_commit tags tagPre tagSuf with
    | none => exact absurd hfp hn
    | some oid =>
      exact ⟨oid, rfl, by simp [create_release_commit, hfp]⟩

/-- Witness for C6: with one decodable prior tag pointing at commit 7 and
branch tip 42, the release commit's parents are [7, 42]. -/
theorem c6_release_parents_witness :
    (create_release_commit ⟨1, 1, 0⟩ [("v1.0.0".toList, 7)] "v".toList [] 42).parents
      = [7, 42] := by
  obtain ⟨oid, h1, h2⟩ :=
    (c6_release_parents ⟨1, 1, 0⟩ [("v1.0.0".toList, 7)] "v".toList [] 42).2 (by decide)
  have h3 : find_previous_release_commit [("v1.0.0".toList, 7)] "v".toList []
      = some 7 := by decide
  rw [h3] at h1
  cases h1
  exact h2

/-- C8 counterexample: for the default rule on "Cargo.toml" and a
snapshot in which that file exists but cannot be read as UTF-8 text, the
rule's substitution fails with the read error, and the build's file
update loop propagates that error through the `?` operator instead of
logging and skipping it — the failure aborts the build. -/
theorem c8_counterexample :
    update_file_version ⟨"Cargo.toml".toList, "0.0.0+local".toList, Option.none⟩
        ⟨1, 2, 3⟩ [("Cargo.toml".toList, Option.none)]
      = Except.error ("stream did not contain valid UTF-8".toList)
    ∧ apply_file_updates [⟨"Cargo.toml".toList, "0.0.0+local".toList, Option.none⟩]
        ⟨1, 2, 3⟩ [("Cargo.toml".toList, Option.none)]
      = Except.error ("stream did not contain valid UTF-8".toList) := by
  exact ⟨rfl, rfl⟩

/-- C8 amended: if the target file is absent or its content is already
up to date, the substitution returns success without modifying anything;
but a read failure on an existing target file is an error, and an error
from any individual rule propagates through the build's update loop and
aborts the whole release-commit construction — it is not logged and
skipped. -/
theorem c8_amended_file_update_behaviour (fc : FileUpdateConfig) (version : Version)
    (fs : FileSystem) :
    (fs.lookup fc.path = Option.none →
        update_file_version fc version fs = Except.ok fs)
    ∧ (∀ content, fs.lookup fc.path = some (some content) →
        replaceAll content fc.marker (replacementFor fc version) = content →
        update_file_version fc version fs = Except.ok fs)
    ∧ (fs.lookup fc.path = some Option.none →
        update_file_version fc version fs
          = Except.error ("stream did not contain valid UTF-8".toList))
    ∧ (∀ e rest, update_file_version fc version fs = Except.error e →
        apply_file_updates (fc :: rest) version fs = Except.error e) := by
  refine ⟨?_, ?_, ?_, ?_⟩
  · intro h
    simp [update_file_version, h]
  · intro content hlook hsame
    simp [update_file_version, hlook, hsame]
  · intro h
    simp [update_file_version, h]
  · intro e rest h
    simp only [apply_file_updates, List.foldlM_cons, h]
    rfl

/-- Witness for C8's amended statement: the failing rule of the
counterexample snapshot aborts the whole update loop. -/
theorem c8_amended_file_update_behaviour_witness :
    apply_file_updates [⟨"Cargo.toml".toList, "0.0.0+local".toList, Option.none⟩]
        ⟨1, 2, 3⟩ [("Cargo.toml".toList, Option.none)]
      = Except.error ("stream did not contain valid UTF-8".toList) :=
  (c8_amended_file_update_behaviour
      ⟨"Cargo.toml".toList, "0.0.0+local".toList, Option.none⟩ ⟨1, 2, 3⟩
      [("Cargo.toml".toList, Option.none)]).2.2.2
    ("stream did not contain valid UTF-8".toList) [] rfl

theorem char_toNat_ofNat {m : Nat} (h : m.isValidChar) : (Char.ofNat m).toNat = m := by
  rw [Char.ofNat, dif_pos h]
  rfl

theorem toLower_eq_bang {c : Char} (h : c.toLower = '!') : c = '!' := by
  unfold Char.toLower at h
  by_cases hc : c.toNat ≥ 65 ∧ c.toNat ≤ 90
  · rw [if_pos hc] at h
    exfalso
    have h2 := congrArg Char.toNat h
    have hv : (c.toNat + 32).isValidChar := by
      left
      simp only [UInt32.isValidChar, Nat.isValidChar] at *
      omega
    rw [char_toNat_ofNat hv] at h2
    have h3 : ('!').toNat = 33 := rfl
    omega
  · rw [if_neg hc] at h
    exact h

theorem bang_not_mem_lowerStr {m : List Char} (h : '!' ∉ m) : '!' ∉ lowerStr m := by
  intro hm
  obtain ⟨c, hc, he⟩ := List.mem_map.mp hm
  exact h (toLower_eq_bang he ▸ hc)

theorem lowerStr_append (a b : List Char) :
    lowerStr (a ++ b) = lowerStr a ++ lowerStr b := by
  simp [lowerStr]

theorem prefix_append_iff_of_le {α : Type} {a b x : List α} (h : a.length ≤ b.length) :
    a <+: (b ++ x) ↔ a <+: b := by
  constructor
  · intro hp
    rw [List.prefix_iff_eq_take] at hp ⊢
    rw [List.take_append_eq_append_take, Nat.sub_eq_zero_of_le h, List.take_zero,
      List.append_nil] at hp
    exact hp
  · intro hp
    exact hp.trans (List.prefix_append b x)

theorem isPrefixOf_append_of_le {a b x : List Char} (h : a.length ≤ b.length) :
    a.isPrefixOf (b ++ x) = a.isPrefixOf b := by
  by_cases hb : a <+: b
  · rw [List.isPrefixOf_iff_prefix.mpr hb,
      List.isPrefixOf_iff_prefix.mpr ((prefix_append_iff_of_le h).mpr hb)]
  · have h1 : a.isPrefixOf b = false :=
      Bool.eq_false_iff.mpr fun hc => hb (List.isPrefixOf_iff_prefix.mp hc)
    have h2 : a.isPrefixOf (b ++ x) = false :=
      Bool.eq_false_iff.mpr fun hc =>
        hb ((prefix_append_iff_of_le h).mp (List.isPrefixOf_iff_prefix.mp hc))
    rw [h1, h2]

theorem contains_eq_false_of_not_mem {l : List Char} {c : Char} (h : c ∉ l) :
    l.contains c = false := by
  simpa using h

theorem contains_append_not_mem {a b : List Char} {c : Char} (ha : c ∉ a) (hb : c ∉ b) :
    (a ++ b).contains c = false := by
  refine contains_eq_false_of_not_mem ?_
  intro hm
  rcases List.mem_append.mp hm with hm | hm
  · exact ha hm
  · exact hb hm

/-- C3 counterexample: the claim says classifying "feat: " + m yields
Minor for every m, but for m = "wow!" the classifier sees the '!' and
returns Major, not Minor. -/
theorem c3_counterexample :
    ¬ BumpType.from_conventional_commit ("feat: ".toList ++ "wow!".toList)
        = BumpType.minor := by decide

/-- C3 amended: classifying "feat!: " + m yields Major for every m; and
for every m containing no '!' character, classifying "feat: " + m yields
Minor, "fix: " + m yields Patch and "chore: " + m yields None. -/
theorem c3_amended_classifier (m : List Char) :
    BumpType.from_conventional_commit ("feat!: ".toList ++ m) = BumpType.major
    ∧ ('!' ∉ m →
      BumpType.from_conventional_commit ("feat: ".toList ++ m) = BumpType.minor
      ∧ BumpType.from_conventional_commit ("fix: ".toList ++ m) = BumpType.patch
      ∧ BumpType.from_conventional_commit ("chore: ".toList ++ m) = BumpType.none) := by
  constructor
  · have hp1 : ("feat!".toList).isPrefixOf ("feat!: ".toList ++ lowerStr m) = true := by
      rw [isPrefixOf_append_of_le (by decide)]
      decide
    simp only [BumpType.from_conventional_commit, lowerStr_append,
      show lowerStr ("feat!: ".toList) = "feat!: ".toList from by decide, hp1]
    simp
  · intro h
    have hlm := bang_not_mem_lowerStr h
    refine ⟨?_, ?_, ?_⟩
    · have hp1 : ("feat!".toList).isPrefixOf ("feat: ".toList ++ lowerStr m) = false := by
        rw [isPrefixOf_append_of_le (by decide)]
        decide
      have hp2 : ("feat".toList).isPrefixOf ("feat: ".toList ++ lowerStr m) = true := by
        rw [isPrefixOf_append_of_le (by decide)]
        decide
      have hc : ("feat: ".toList ++ lowerStr m).contains '!' = false :=
        contains_append_not_mem (by decide) hlm
      simp only [BumpType.from_conventional_commit, lowerStr_append,
        show lowerStr ("feat: ".toList) = "feat: ".toList from by decide, hp1, hp2, hc]
      simp
    · have hp1 : ("feat!".toList).isPrefixOf ("fix: ".toList ++ lowerStr m) = false := by
        rw [isPrefixOf_append_of_le (by decide)]
        decide
      have hp2 : ("feat".toList).isPrefixOf ("fix: ".toList ++ lowerStr m) = false := by
        rw [isPrefixOf_append_of_le (by decide)]
        decide
      have hp3 : ("fix".toList).isPrefixOf ("fix: ".toList ++ lowerStr m) = true := by
        rw [isPrefixOf_append_of_le (by decide)]
        decide
      have hc : ("fix: ".toList ++ lowerStr m).contains '!' = false :=
        contains_append_not_mem (by decide) hlm
      simp only [BumpType.from_conventional_commit, lowerStr_append,
        show lowerStr ("fix: ".toList) = "fix: ".toList from by decide, hp1, hp2, hp3, hc]
      simp
    · have hp1 : ("feat!".toList).isPrefixOf ("chore: ".toList ++ lowerStr m) = false := by
        rw [isPrefixOf_append_of_le (by decide)]
        decide
      have hp2 : ("feat".toList).isPrefixOf ("chore: ".toList ++ lowerStr m) = false := by
        rw [isPrefixOf_append_of_le (by decide)]
        decide
      have hp3 : ("fix".toList).isPrefixOf ("chore: ".toList ++ lowerStr m) = false := by
        rw [isPrefixOf_append_of_le (by decide)]
        decide
      have hp4 : ("perf".toList).isPrefixOf ("chore: ".toList ++ lowerStr m) = false := by
        rw [isPrefixOf_append_of_le (by decide)]
        decide
      have hc : ("chore: ".toList ++ lowerStr m).contains '!' = false :=
        contains_append_not_mem (by decide) hlm
      simp only [BumpType.from_conventional_commit, lowerStr_append,
        show lowerStr ("chore: ".toList) = "chore: ".toList from by decide,
        hp1, hp2, hp3, hp4, hc]
      simp

/-- Witness for C3's amended statement at m = "add login". -/
theorem c3_amended_classifier_witness :
    BumpType.from_conventional_commit ("feat: ".toList ++ "add login".toList)
      = BumpType.minor :=
  ((c3_amended_classifier ("add login".toList)).2 (by decide)).1

/-- C4: For every parsed commit, the severity derivation is: breaking
change implies Major; otherwise type "feat" implies Minor; otherwise
type "fix", "perf" or "security" implies Patch; every other type, known
or unknown, implies None. -/
theorem c4_bump_type_derivation (c : ConventionalCommit) :
    (c.breaking_change = true → c.bump_type = BumpType.major)
    ∧ (c.breaking_change = false →
      ((c.commit_type = "feat".toList → c.bump_type = BumpType.minor)
       ∧ ((c.commit_type = "fix".toList ∨ c.commit_type = "perf".toList
            ∨ c.commit_type = "security".toList) → c.bump_type = BumpType.patch)
       ∧ ((c.commit_type ≠ "feat".toList ∧ c.commit_type ≠ "fix".toList
            ∧ c.commit_type ≠ "perf".toList ∧ c.commit_type ≠ "security".toList)
          → c.bump_type = BumpType.none))) := by
  unfold ConventionalCommit.bump_type
  constructor
  · intro h
    simp [h]
  · intro h
    rw [h]
    refine ⟨?_, ?_, ?_⟩
    · intro ht
      simp [ht]
    · rintro (ht | ht | ht) <;> simp [ht]
    · rintro ⟨h1, h2, h3, h4⟩
      simp only [h1, h2, h3, h4, if_false, false_or, or_false, Bool.false_eq_true]
      split <;> rfl

/-- Witness for C4: a non-breaking "feat" commit derives Minor. -/
theorem c4_bump_type_derivation_witness :
    ConventionalCommit.bump_type
      ⟨"feat".toList, Option.none, "x".toList, Option.none, Option.none, false⟩
      = BumpType.minor :=
  ((c4_bump_type_derivation
      ⟨"feat".toList, Option.none, "x".toList, Option.none, Option.none, false⟩).2 rfl).1 rfl

/-- C7 evaluation: the two documented parse errors behave as the claim
says (no ':' gives the missing-separator error, an unclosed '(' before
the first ':' gives the unclosed-scope error), but on the header
"a)(: x" — which has a ':' and whose type part contains both parens with
the first ')' before the first '(' — the Rust slice
type_part[paren_start + 1..paren_end] has its start after its end, so
the code panics instead of succeeding. -/
theorem c7_parse_outcomes :
    ConventionalCommit.parse ("a)(: x".toList) = ParseResult.panicked
    ∧ ConventionalCommit.parse ("invalid message format".toList)
        = ParseResult.missingSeparator
    ∧ ConventionalCommit.parse ("feat(scope: missing closing paren".toList)
        = ParseResult.unclosedScope := by decide

/-- C10: The classifier the release run invokes on the HEAD commit
message is total: any message whose lowercased form contains no '!' and
does not start with "feat", "fix" or "perf" is classified None, and the
run then returns a successful released-false output rather than a parse
error. -/
theorem c10_run_non_conforming_message (msg : List Char) (tags : List (List Char))
    (tagPre tagSuf : List Char) (initial : Version)
    (h1 : '!' ∉ lowerStr msg)
    (h2 : ("feat".toList).isPrefixOf (lowerStr msg) = false)
    (h3 : ("fix".toList).isPrefixOf (lowerStr msg) = false)
    (h4 : ("perf".toList).isPrefixOf (lowerStr msg) = false) :
    BumpType.from_conventional_commit msg = BumpType.none
    ∧ ReleaseApplication.run initial tags tagPre tagSuf msg false
        = Except.ok ⟨false,
            some (VersionManager.get_version_from_git_tags tags tagPre tagSuf
              initial).to_string,
            Option.none, Option.none⟩ := by
  have hfb : ("feat!".toList).isPrefixOf (lowerStr msg) = false := by
    refine Bool.eq_false_iff.mpr fun hc => ?_
    have hp : ("feat".toList) <+: lowerStr msg :=
      (show ("feat".toList) <+: ("feat!".toList) by decide).trans
        (List.isPrefixOf_iff_prefix.mp hc)
    rw [List.isPrefixOf_iff_prefix.mpr hp] at h2
    exact absurd h2 (by simp)
  have hcont : (lowerStr msg).contains '!' = false := contains_eq_false_of_not_mem h1
  have hnone : BumpType.from_conventional_commit msg = BumpType.none := by
    simp only [BumpType.from_conventional_commit, hfb, hcont, h2, h3, h4]
    simp
  refine ⟨hnone, ?_⟩
  simp only [ReleaseApplication.run, hnone]
  simp [VersionManager.calculate_new_version]

/-- Witness for C10: a plain non-conventional message yields a
successful released-false run. -/
theorem c10_run_non_conforming_message_witness :
    BumpType.from_conventional_commit ("update readme".toList) = BumpType.none
    ∧ ReleaseApplication.run ⟨0, 1, 0⟩ ["v1.0.0".toList] "v".toList []
        ("update readme".toList) false
      = Except.ok ⟨false,
          some (VersionManager.get_version_from_git_tags ["v1.0.0".toList]
            "v".toList [] ⟨0, 1, 0⟩).to_string,
          Option.none, Option.none⟩ :=
  c10_run_non_conforming_message ("update readme".toList) ["v1.0.0".toList]
    "v".toList [] ⟨0, 1, 0⟩ (by decide) (by decide) (by decide) (by decide)
